import Mathlib

/-!
Verification of the slice iterator library.

The library is built on Go's push iterators: a sequence is a function that
takes a consumer callback and calls it once per element, in order, until the
elements are exhausted or the callback returns false.  We embed the callback
with an explicit state of type σ threaded through the calls: the callback
receives the yielded element and the current state and returns the continue
flag together with the next state; driving a sequence returns the final state.
Mutable variables captured by Go closures (counters, accumulators, output
slices) become components of that state.
-/

namespace slice

/-- SliceIterator is the embedding of iter.Seq for values of type T:
drive me with a callback and a starting state, and I return the final state. -/
def SliceIterator (T : Type) : Type 1 :=
  (σ : Type) → (T → σ → Bool × σ) → σ → σ

/-- Loop of NewIterator: call yield once per element in order, stopping
the first time it returns false. -/
def newIterGo {T σ : Type} (yield : T → σ → Bool × σ) : List T → σ → σ
  | [], st => st
  | v :: rest, st =>
    let r := yield v st
    if r.1 then newIterGo yield rest r.2 else r.2

/-- NewIterator creates a SliceIterator that iterates over the elements of the
provided list s. -/
def NewIterator {T : Type} (s : List T) : SliceIterator T :=
  fun _ yield st => newIterGo yield s st

/-- Enumerated pairs a traversal index with a value. -/
structure Enumerated (U : Type) where
  Index : Nat
  Value : U

/-- Enumerator is a sequence of index-value pairs. -/
abbrev Enumerator (V : Type) := SliceIterator (Enumerated V)

/-- Enumerate wraps a sequence, pairing each yielded element with a zero-based
counter incremented once per yielded element.  The counter is an extra Nat
component of the driving state. -/
def SliceIterator.Enumerate {T : Type} (s : SliceIterator T) : Enumerator T :=
  fun σ yield st =>
    (s (Nat × σ) (fun v p =>
        let r := yield ⟨p.1, v⟩ p.2
        (r.1, (p.1 + 1, r.2))) (0, st)).2

/-- Count drives the sequence to exhaustion, counting callback invocations. -/
def SliceIterator.Count {T : Type} (s : SliceIterator T) : Nat :=
  s Nat (fun _ cnt => (true, cnt + 1)) 0

/-- Collect consumes the SliceIterator and returns a list of all yielded
elements: it sizes the output by Count (a list of default values models
Go's make), then drives Enumerate writing each value at its index. -/
def SliceIterator.Collect {T : Type} [Inhabited T] (i : SliceIterator T) : List T :=
  i.Enumerate (List T) (fun e out => (true, out.set e.Index e.Value))
    (List.replicate i.Count default)

/-- Map applies a transformation function to every element and returns a new
iterator; the outer callback's continue flag is forwarded upstream. -/
def Map {T V : Type} (s : SliceIterator T) (transform : T → V) : SliceIterator V :=
  fun σ yield st => s σ (fun v st => yield (transform v) st) st

/-- Filter returns a new iterator containing only the elements for which the
provided filter function returns true; dropped elements leave the state
unchanged and continue the upstream traversal. -/
def Filter {T : Type} (s : SliceIterator T) (filter : T → Bool) : SliceIterator T :=
  fun σ yield st => s σ (fun v st => if filter v then yield v st else (true, st)) st

/-- Reduce combines all elements into a single accumulated value, starting with
an initial value, applying the combine function left-to-right in yield order. -/
def Reduce {T V : Type} (i : SliceIterator T) (initial : V) (reduce : V → T → V) : V :=
  i V (fun v res => (true, reduce res v)) initial

/-- Tuple is an ordered pair, the element type produced by Zip. -/
structure Tuple (T V : Type) where
  Left : T
  Right : V

/-- Loop of Zip over the first list, indexing into the second; the default
value models Go's indexing, which is always in bounds under Zip's
equal-length guard. -/
def zipGo {T V σ : Type} [Inhabited V] (s2 : List V)
    (yield : Tuple T V → σ → Bool × σ) : Nat → List T → σ → σ
  | _, [], st => st
  | i, v1 :: rest, st =>
    let r := yield ⟨v1, s2.getD i default⟩ st
    if r.1 then zipGo s2 yield (i + 1) rest r.2 else r.2

/-- Zip combines two lists into an iterator of tuples; if the lengths differ it
yields nothing. -/
def Zip {T V : Type} [Inhabited V] (s1 : List T) (s2 : List V) :
    SliceIterator (Tuple T V) :=
  fun _ yield st =>
    if s1.length != s2.length then st
    else zipGo s2 yield 0 s1 st

/-- Loop of Concat: drive each inner sequence in order at the state Bool × σ,
where the Bool flag records whether the outer callback has asked to stop;
once the flag is false no further inner sequence is driven.  This encodes
the early return from Go's nested loops. -/
def concatGo {T σ : Type} (yield : T → σ → Bool × σ) :
    List (SliceIterator T) → σ → Bool × σ
  | [], st => (true, st)
  | it :: rest, st =>
    let p := it (Bool × σ) (fun v q =>
      let r := yield v q.2
      (r.1, (r.1, r.2))) (true, st)
    if p.1 then concatGo yield rest p.2 else p

/-- Concat concatenates multiple iterators into a single iterator. -/
def Concat {T : Type} (iters : List (SliceIterator T)) : SliceIterator T :=
  fun _ yield st => (concatGo yield iters st).2

/-- Any returns true if some element meets the predicate, stopping the
traversal at the first match. -/
def Any {T : Type} (s : SliceIterator T) (predicate : T → Bool) : Bool :=
  s Bool (fun el found => if predicate el then (false, true) else (true, found)) false

/-- All returns true if all elements meet the predicate, stopping the
traversal at the first failure. -/
def All {T : Type} (s : SliceIterator T) (predicate : T → Bool) : Bool :=
  s Bool (fun el res => if predicate el then (true, res) else (false, false)) true

/-- Collect from the earlier revision of the library (the append-based,
single-pass implementation): drives the sequence once, appending each
yielded element to a growing list. -/
def V0.Collect {T : Type} (i : SliceIterator T) : List T :=
  i (List T) (fun v res => (true, res ++ [v])) []

/-- A sequence yields the list xs when driving it with any callback from any
state is the same as driving the canonical iterator over xs: it offers
exactly the elements of xs in order, honoring early stop. -/
def Yields {T : Type} (s : SliceIterator T) (xs : List T) : Prop :=
  ∀ (σ : Type) (yield : T → σ → Bool × σ) (st : σ),
    s σ yield st = NewIterator xs σ yield st

theorem yields_newIterator {T : Type} (xs : List T) :
    Yields (NewIterator xs) xs := fun _ _ _ => rfl

/-- Reference runner for the canonical loop which additionally reports whether
the traversal ran to exhaustion (true) or was stopped by the callback
(false). -/
def runGo {T σ : Type} (yield : T → σ → Bool × σ) : List T → σ → Bool × σ
  | [], st => (true, st)
  | v :: rest, st =>
    let r := yield v st
    if r.1 then runGo yield rest r.2 else (false, r.2)

theorem newIterGo_eq_runGo {T σ : Type} (yield : T → σ → Bool × σ)
    (xs : List T) (st : σ) : newIterGo yield xs st = (runGo yield xs st).2 := by
  induction xs generalizing st with
  | nil => rfl
  | cons v rest ih =>
    simp only [newIterGo, runGo]
    by_cases h : (yield v st).1 <;> simp [h, ih]

theorem runGo_append {T σ : Type} (yield : T → σ → Bool × σ)
    (xs ys : List T) (st : σ) :
    runGo yield (xs ++ ys) st =
      (if (runGo yield xs st).1 then runGo yield ys (runGo yield xs st).2
       else runGo yield xs st) := by
  induction xs generalizing st with
  | nil => simp [runGo]
  | cons v rest ih =>
    simp only [List.cons_append, runGo]
    by_cases h : (yield v st).1 <;> simp [h, ih]

/-- Driving the canonical loop at the flagged state that Concat uses records
in the flag whether the callback asked to stop. -/
theorem newIterGo_flag {T σ : Type} (yield : T → σ → Bool × σ)
    (ys : List T) (st : σ) :
    newIterGo (fun v (q : Bool × σ) =>
        let r := yield v q.2
        (r.1, (r.1, r.2))) ys (true, st) = runGo yield ys st := by
  induction ys generalizing st with
  | nil => rfl
  | cons v rest ih =>
    simp only [newIterGo, runGo]
    by_cases h : (yield v st).1 <;> simp [h, ih]

theorem count_go {T : Type} (xs : List T) (n : Nat) :
    newIterGo (fun (_ : T) (cnt : Nat) => (true, cnt + 1)) xs n = n + xs.length := by
  induction xs generalizing n with
  | nil => rfl
  | cons v rest ih =>
    simp [newIterGo, ih]
    omega

theorem count_yields {T : Type} {s : SliceIterator T} {xs : List T}
    (h : Yields s xs) : s.Count = xs.length := by
  simp only [SliceIterator.Count]
  rw [h]
  simpa [NewIterator] using count_go xs 0

theorem set_append_len {T : Type} (pre : List T) (y x : T) (suf : List T) :
    (pre ++ y :: suf).set pre.length x = pre ++ x :: suf := by
  induction pre with
  | nil => rfl
  | cons a pre ih => simp [List.set, ih]

theorem enum_set_go {T : Type} (xs : List T) :
    ∀ (pre suf : List T), suf.length = xs.length →
      newIterGo (fun (v : T) (p : Nat × List T) =>
          ((true : Bool), (p.1 + 1, p.2.set p.1 v))) xs (pre.length, pre ++ suf)
        = (pre.length + xs.length, pre ++ xs) := by
  induction xs with
  | nil =>
    intro pre suf hlen
    simp only [List.length_nil] at hlen
    rw [List.length_eq_zero] at hlen
    subst hlen
    simp [newIterGo]
  | cons x rest ih =>
    intro pre suf hlen
    match suf, hlen with
    | d :: suf, hlen =>
      simp only [newIterGo, if_pos rfl, set_append_len]
      have hx : pre ++ x :: suf = (pre ++ [x]) ++ suf := by simp
      have hl : pre.length + 1 = (pre ++ [x]).length := by simp
      rw [hx, hl, ih (pre ++ [x]) suf (by simpa using hlen)]
      simp
      omega

theorem collect_yields {T : Type} [Inhabited T] {s : SliceIterator T}
    {xs : List T} (h : Yields s xs) : s.Collect = xs := by
  simp only [SliceIterator.Collect, SliceIterator.Enumerate, count_yields h]
  rw [h]
  simp only [NewIterator]
  have h2 := enum_set_go xs [] (List.replicate xs.length default)
    (by simp)
  simp only [List.length_nil, List.nil_append, Nat.zero_add] at h2
  rw [h2]

theorem v0_collect_go {T : Type} (xs acc : List T) :
    newIterGo (fun (v : T) (res : List T) => (true, res ++ [v])) xs acc
      = acc ++ xs := by
  induction xs generalizing acc with
  | nil => simp [newIterGo]
  | cons v rest ih => simp [newIterGo, ih]

theorem v0_collect_yields {T : Type} {s : SliceIterator T} {xs : List T}
    (h : Yields s xs) : V0.Collect s = xs := by
  simp only [V0.Collect]
  rw [h]
  simpa [NewIterator] using v0_collect_go xs []

theorem map_go {T V σ : Type} (f : T → V) (yield : V → σ → Bool × σ)
    (xs : List T) (st : σ) :
    newIterGo (fun v st => yield (f v) st) xs st
      = newIterGo yield (xs.map f) st := by
  induction xs generalizing st with
  | nil => rfl
  | cons v rest ih =>
    simp only [newIterGo, List.map_cons]
    by_cases h : (yield (f v) st).1 <;> simp [h, ih]

theorem map_yields {T V : Type} {s : SliceIterator T} {xs : List T}
    (f : T → V) (h : Yields s xs) : Yields (Map s f) (xs.map f) := by
  intro σ yield st
  simp only [Map]
  rw [h]
  simpa [NewIterator] using map_go f yield xs st

theorem filter_go {T σ : Type} (p : T → Bool) (yield : T → σ → Bool × σ)
    (xs : List T) (st : σ) :
    newIterGo (fun v st => if p v then yield v st else (true, st)) xs st
      = newIterGo yield (xs.filter p) st := by
  induction xs generalizing st with
  | nil => rfl
  | cons v rest ih =>
    by_cases hp : p v
    · simp only [newIterGo, List.filter_cons_of_pos hp]
      by_cases h : (yield v st).1 <;> simp [hp, h, ih]
    · simp only [newIterGo, List.filter_cons_of_neg hp]
      simp [hp, ih]

theorem filter_yields {T : Type} {s : SliceIterator T} {xs : List T}
    (p : T → Bool) (h : Yields s xs) : Yields (Filter s p) (xs.filter p) := by
  intro σ yield st
  simp only [Filter]
  rw [h]
  simpa [NewIterator] using filter_go p yield xs st

theorem reduce_go {T V : Type} (c : V → T → V) (xs : List T) (init : V) :
    newIterGo (fun v res => ((true : Bool), c res v)) xs init
      = xs.foldl c init := by
  induction xs generalizing init with
  | nil => rfl
  | cons v rest ih => simp [newIterGo, ih, List.foldl_cons]

theorem reduce_yields {T V : Type} {s : SliceIterator T} {xs : List T}
    (init : V) (c : V → T → V) (h : Yields s xs) :
    Reduce s init c = xs.foldl c init := by
  simp only [Reduce]
  rw [h]
  simpa [NewIterator] using reduce_go c xs init

theorem any_go {T : Type} (p : T → Bool) (xs : List T) (b : Bool) :
    newIterGo (fun el found =>
      if p el then ((false : Bool), true) else (true, found)) xs b
      = (b || xs.any p) := by
  induction xs generalizing b with
  | nil => simp [newIterGo]
  | cons v rest ih =>
    by_cases hp : p v <;> simp [newIterGo, hp, ih]

theorem any_yields {T : Type} {s : SliceIterator T} {xs : List T}
    (p : T → Bool) (h : Yields s xs) : Any s p = xs.any p := by
  simp only [Any]
  rw [h]
  simpa [NewIterator] using any_go p xs false

theorem all_go {T : Type} (p : T → Bool) (xs : List T) (b : Bool) :
    newIterGo (fun el res =>
      if p el then ((true : Bool), res) else (false, false)) xs b
      = (b && xs.all p) := by
  induction xs generalizing b with
  | nil => simp [newIterGo]
  | cons v rest ih =>
    by_cases hp : p v <;> simp [newIterGo, hp, ih]

theorem all_yields {T : Type} {s : SliceIterator T} {xs : List T}
    (p : T → Bool) (h : Yields s xs) : All s p = xs.all p := by
  simp only [All]
  rw [h]
  simpa [NewIterator] using all_go p xs true

theorem getD_append_len {T : Type} (pre : List T) (y : T) (suf : List T)
    (d : T) : (pre ++ y :: suf).getD pre.length d = y := by
  induction pre with
  | nil => rfl
  | cons a pre ih => simpa [List.getD] using ih

theorem zip_go_eq {T V σ : Type} [Inhabited V]
    (yield : Tuple T V → σ → Bool × σ) :
    ∀ (s1 : List T) (pre s2 : List V) (st : σ), s1.length = s2.length →
      zipGo (pre ++ s2) yield pre.length s1 st
        = newIterGo yield (List.zipWith Tuple.mk s1 s2) st := by
  intro s1
  induction s1 with
  | nil =>
    intro pre s2 st _
    rfl
  | cons v1 rest ih =>
    intro pre s2 st hlen
    match s2, hlen with
    | v2 :: s2, hlen =>
      simp only [zipGo, newIterGo, List.zipWith_cons_cons, getD_append_len]
      have hx : pre ++ v2 :: s2 = (pre ++ [v2]) ++ s2 := by simp
      have hl : pre.length + 1 = (pre ++ [v2]).length := by simp
      by_cases h : (yield ⟨v1, v2⟩ st).1
      · simp only [h, if_pos rfl]
        rw [hx, hl, ih (pre ++ [v2]) s2 _ (by simpa using hlen)]
      · simp [h]

theorem zip_yields_eq {T V : Type} [Inhabited V] {s1 : List T} {s2 : List V}
    (h : s1.length = s2.length) :
    Yields (Zip s1 s2) (List.zipWith Tuple.mk s1 s2) := by
  intro σ yield st
  simp only [Zip, NewIterator, h, bne_self_eq_false, Bool.false_eq_true,
    if_neg, ite_false]
  simpa using zip_go_eq yield s1 [] s2 st h

theorem zip_yields_ne {T V : Type} [Inhabited V] {s1 : List T} {s2 : List V}
    (h : s1.length ≠ s2.length) : Yields (Zip s1 s2) [] := by
  intro σ yield st
  simp [Zip, NewIterator, newIterGo, bne_iff_ne, h]

theorem concat_go_yields {T σ : Type} (yield : T → σ → Bool × σ)
    {its : List (SliceIterator T)} {xss : List (List T)}
    (h : List.Forall₂ Yields its xss) :
    ∀ st, concatGo yield its st = runGo yield xss.flatten st := by
  induction h with
  | nil => intro st; rfl
  | @cons it ys rest xss h1 _ ih =>
    intro st
    simp only [concatGo, List.flatten_cons]
    rw [h1]
    simp only [NewIterator, newIterGo_flag]
    rw [runGo_append]
    by_cases hc : (runGo yield ys st).1
    · simp [hc, ih]
    · simp [hc]

theorem concat_yields {T : Type} {its : List (SliceIterator T)}
    {xss : List (List T)} (h : List.Forall₂ Yields its xss) :
    Yields (Concat its) xss.flatten := by
  intro σ yield st
  simp only [Concat, NewIterator, concat_go_yields yield h st,
    newIterGo_eq_runGo]

/-- C1: for every sequence that yields elements x0..x(N-1) when driven,
Collect drives the sequence to exhaustion and returns an ordered result of
length N containing exactly those elements in yield order, with no
dependency on a length hint. -/
theorem collect_exhausts_in_order {T : Type} [Inhabited T]
    (s : SliceIterator T) (xs : List T) (h : Yields s xs) :
    s.Collect = xs ∧ s.Collect.length = xs.length := by
  refine ⟨collect_yields h, ?_⟩
  rw [collect_yields h]

theorem collect_exhausts_in_order_witness :
    (NewIterator [5, 6, 7]).Collect = [5, 6, 7] ∧
      (NewIterator [5, 6, 7]).Collect.length = [5, 6, 7].length :=
  collect_exhausts_in_order (NewIterator [5, 6, 7]) [5, 6, 7]
    (fun _ _ _ => rfl)

/-- C2: after the callback returns false the traversal invokes it no
further, and the stop propagates through Concat: driving Concat of a
sequence yielding a :: rest followed by any second sequence sB, with a
recording callback that returns false on its first invocation, produces
the one-element trace [a], for every sB (so sB is never driven) and every
rest (so the first sequence is not driven past the stop). -/
theorem concat_stop_propagates {T : Type} (sA sB : SliceIterator T)
    (a : T) (rest : List T) (h : Yields sA (a :: rest)) :
    Concat [sA, sB] (List T) (fun v tr => (false, tr ++ [v])) [] = [a] := by
  simp only [Concat, concatGo]
  rw [h]
  simp [NewIterator, newIterGo, concatGo]

theorem concat_stop_propagates_witness :
    Concat [NewIterator [10, 20], NewIterator [30, 40]] (List Nat)
      (fun v tr => (false, tr ++ [v])) [] = [10] :=
  concat_stop_propagates (NewIterator [10, 20]) (NewIterator [30, 40])
    10 [20] (fun _ _ _ => rfl)

/-- C3: for every fixed collection S and pure function f,
Collect (Map (fromCollection S) f) is the elementwise application of f to
S, preserving both order and length. -/
theorem map_collect_spec {T V : Type} [Inhabited V] (S : List T)
    (f : T → V) :
    (Map (NewIterator S) f).Collect = S.map f ∧
      (Map (NewIterator S) f).Collect.length = S.length := by
  have h := collect_yields (map_yields f (yields_newIterator S))
  exact ⟨h, by rw [h, List.length_map]⟩

/-- C4: for every fixed collection S and predicate p,
Collect (Filter (fromCollection S) p) is the order-preserving sub-sequence
of S where p holds, and its length is at most the length of S. -/
theorem filter_collect_spec {T : Type} [Inhabited T] (S : List T)
    (p : T → Bool) :
    (Filter (NewIterator S) p).Collect = S.filter p ∧
      (Filter (NewIterator S) p).Collect.length ≤ S.length := by
  have h := collect_yields (filter_yields p (yields_newIterator S))
  exact ⟨h, by rw [h]; exact List.length_filter_le p S⟩

/-- C5: for every sequence, initial value and combine function, Reduce
folds combine left-to-right in yield order starting from the initial
value, and on an empty sequence returns the initial value unchanged. -/
theorem reduce_spec {T V : Type} (s : SliceIterator T) (xs : List T)
    (initial : V) (combine : V → T → V) (h : Yields s xs) :
    Reduce s initial combine = xs.foldl combine initial ∧
      Reduce (NewIterator ([] : List T)) initial combine = initial :=
  ⟨reduce_yields initial combine h, rfl⟩

theorem reduce_spec_witness :
    Reduce (NewIterator [1, 2, 3, 4, 5]) 0 (fun a b => a + b)
        = [1, 2, 3, 4, 5].foldl (fun a b => a + b) 0 ∧
      Reduce (NewIterator ([] : List Nat)) 0 (fun a b => a + b) = 0 :=
  reduce_spec (NewIterator [1, 2, 3, 4, 5]) [1, 2, 3, 4, 5] 0
    (fun a b => a + b) (fun _ _ _ => rfl)

/-- C6: for all collections a and b, if the lengths differ then Zip a b
yields zero elements (driving never invokes the callback: it behaves as
the iterator over []), rather than raising an error; if the lengths are
equal it yields the index-aligned tuples in order, honoring early stop. -/
theorem zip_spec {T V : Type} [Inhabited V] (s1 : List T) (s2 : List V) :
    (s1.length ≠ s2.length → Yields (Zip s1 s2) []) ∧
      (s1.length = s2.length →
        Yields (Zip s1 s2) (List.zipWith Tuple.mk s1 s2)) :=
  ⟨fun h => zip_yields_ne h, fun h => zip_yields_eq h⟩

theorem zip_spec_witness :
    Yields (Zip [1, 2, 3] [4, 5]) [] ∧
      Yields (Zip [1, 2] [3, 4]) [⟨1, 3⟩, ⟨2, 4⟩] :=
  ⟨(zip_spec [1, 2, 3] [4, 5]).1 (by decide),
    (zip_spec [1, 2] [3, 4]).2 (by decide)⟩

/-- C7: for every ordered list of input sequences, Concat yields all
elements of each input in list order before moving to the next, an empty
input contributing nothing: if the inputs yield the lists xss, then
Concat yields their concatenation, and collecting it gives exactly that
concatenation. -/
theorem concat_spec {T : Type} [Inhabited T] (its : List (SliceIterator T))
    (xss : List (List T)) (h : List.Forall₂ Yields its xss) :
    Yields (Concat its) xss.flatten ∧ (Concat its).Collect = xss.flatten :=
  ⟨concat_yields h, collect_yields (concat_yields h)⟩

theorem concat_spec_witness :
    Yields (Concat [NewIterator [1, 2], NewIterator [3, 4],
        NewIterator ([] : List Nat)]) [[1, 2], [3, 4], []].flatten ∧
      (Concat [NewIterator [1, 2], NewIterator [3, 4],
        NewIterator ([] : List Nat)]).Collect = [[1, 2], [3, 4], []].flatten :=
  concat_spec [NewIterator [1, 2], NewIterator [3, 4], NewIterator []]
    [[1, 2], [3, 4], []]
    (List.Forall₂.cons (fun _ _ _ => rfl)
      (List.Forall₂.cons (fun _ _ _ => rfl)
        (List.Forall₂.cons (fun _ _ _ => rfl) List.Forall₂.nil)))

/-- C8: for every finite sequence, Count equals the length of Collect. -/
theorem count_eq_length_collect {T : Type} [Inhabited T]
    (s : SliceIterator T) (xs : List T) (h : Yields s xs) :
    s.Count = s.Collect.length := by
  rw [count_yields h, collect_yields h]

theorem count_eq_length_collect_witness :
    (NewIterator [7, 8, 9]).Count = (NewIterator [7, 8, 9]).Collect.length :=
  count_eq_length_collect (NewIterator [7, 8, 9]) [7, 8, 9]
    (fun _ _ _ => rfl)

/-- C9: Any on an empty sequence is false and All on an empty sequence is
true (vacuous truth); in general, for a sequence yielding xs, Any returns
whether the predicate holds for some element of xs and All returns
whether it holds for all of them, matching the stop-at-first-witness
drive of the code. -/
theorem any_all_spec {T : Type} (s : SliceIterator T) (xs : List T)
    (p : T → Bool) (h : Yields s xs) :
    Any s p = xs.any p ∧ All s p = xs.all p ∧
      Any (NewIterator ([] : List T)) p = false ∧
      All (NewIterator ([] : List T)) p = true :=
  ⟨any_yields p h, all_yields p h, rfl, rfl⟩

theorem any_all_spec_witness :
    Any (NewIterator [1, 2, 3]) (fun v => v == 3)
        = [1, 2, 3].any (fun v => v == 3) ∧
      All (NewIterator [1, 2, 3]) (fun v => v == 3)
        = [1, 2, 3].all (fun v => v == 3) ∧
      Any (NewIterator ([] : List Nat)) (fun v => v == 3) = false ∧
      All (NewIterator ([] : List Nat)) (fun v => v == 3) = true :=
  any_all_spec (NewIterator [1, 2, 3]) [1, 2, 3] (fun v => v == 3)
    (fun _ _ _ => rfl)

/-- C10: the two Collect implementations agree on restartable sequences:
for every sequence that yields the same list xs each time it is driven,
the two-pass Collect (Count to size the output, then Enumerate to fill
it) returns the same list as the single-pass append-based Collect. -/
theorem collect_two_pass_eq_single_pass {T : Type} [Inhabited T]
    (s : SliceIterator T) (xs : List T) (h : Yields s xs) :
    s.Collect = V0.Collect s := by
  rw [collect_yields h, v0_collect_yields h]

theorem collect_two_pass_eq_single_pass_witness :
    (NewIterator [3, 1, 2]).Collect = V0.Collect (NewIterator [3, 1, 2]) :=
  collect_two_pass_eq_single_pass (NewIterator [3, 1, 2]) [3, 1, 2]
    (fun _ _ _ => rfl)

end slice
